import Mathlib

/-!
Verification of the vitest-mcp-server core against its specification.

The development shallowly embeds the pure logic of the repository:

* the Range Grouper (`groupLinesIntoRanges` in `run-vitest-coverage.ts`),
* the Uncovered-Line Extractor (`extractUncoveredLines`),
* the Coverage Reducer (the `detailedFileCoverage` reduce and its
  per-file status classification),
* the Process Output Assembler's completion heuristic and `close`
  handlers (`run-vitest.ts` and the spawn-based coverage tool),
* the aggregate-count computations of the tool variants,
* the working-directory save/restore skeleton, and
* a small reference heap to express that the Range Grouper sorts a copy
  of its argument.

JavaScript string primitives used by the source (`includes`, `endsWith`,
`trim`, first-occurrence `replace`, decimal rendering of integers) are
modelled by executable functions over `List Char` so that every
definition evaluates by `decide`/`rfl`.
-/

/-! ### JavaScript string primitives over character lists -/

/-- `startsWithChars s pat` is true when `pat` is a prefix of `s`
(character-by-character comparison, as JS string comparison does). -/
def startsWithChars : List Char → List Char → Bool
  | _, [] => true
  | [], _ :: _ => false
  | c :: cs, p :: ps => c = p && startsWithChars cs ps

/-- Substring occurrence test on character lists: JS `String.prototype.includes`. -/
def containsSubList : List Char → List Char → Bool
  | [], pat => pat.isEmpty
  | c :: cs, pat => startsWithChars (c :: cs) pat || containsSubList cs pat

/-- JS `haystack.includes(needle)`. -/
def containsSub (s pat : String) : Bool :=
  containsSubList s.toList pat.toList

/-- JS `s.endsWith(suffix)`: the reversed suffix is a prefix of the reversed string. -/
def endsWithStr (s suffix : String) : Bool :=
  startsWithChars s.toList.reverse suffix.toList.reverse

/-- The whitespace characters stripped by JS `String.prototype.trim`
(ASCII portion; the buffers produced by the test runner are ASCII). -/
def isJsSpace (c : Char) : Bool :=
  c = ' ' || c = '\t' || c = '\n' || c = '\r' || c = '\x0b' || c = '\x0c'

/-- JS `s.trim()`: drop leading and trailing whitespace. -/
def jsTrim (s : String) : String :=
  (((s.toList.dropWhile isJsSpace).reverse.dropWhile isJsSpace).reverse).asString

/-- Remove the first occurrence of `pat` from `s` (empty pattern removes
nothing): the character-list core of JS `s.replace(pat, '')`. -/
def removeFirstChars : List Char → List Char → List Char
  | [], _ => []
  | c :: cs, pat =>
    if startsWithChars (c :: cs) pat && !pat.isEmpty then (c :: cs).drop pat.length
    else c :: removeFirstChars cs pat

/-- JS `s.replace(pat, '')` (string `pat` replaces only the first occurrence). -/
def replaceFirst (s pat : String) : String :=
  (removeFirstChars s.toList pat.toList).asString

/-! ### Decimal rendering of naturals

`start.toString()` and the template literals of the source render numbers
in decimal; in the embedding this is `Nat.repr`.  The reasoning below
relates `Nat.repr` to a structural recursion `natChars` and proves that
the decimal reading `parseDigits` inverts it. -/

/-- Structural-recursion presentation of the character list produced by
`Nat.toDigits 10`. -/
def natChars (n : Nat) : List Char :=
  if _h : n < 10 then [Nat.digitChar n]
  else natChars (n / 10) ++ [Nat.digitChar (n % 10)]
  termination_by n
  decreasing_by exact Nat.div_lt_self (by omega) (by omega)

/-- One step of decimal reading. -/
def parseStep (n : Nat) (c : Char) : Nat := n * 10 + (c.toNat - 48)

/-- Decimal reading of a digit string. -/
def parseDigits (cs : List Char) : Nat := cs.foldl parseStep 0

/-! ### Range Grouper (`groupLinesIntoRanges`)

Source (`run-vitest-coverage.ts`): on empty input return `[]`; otherwise
sort a copy of the input ascending (`[...lines].sort((a, b) => a - b)`),
then a single pass tracks `start`/`end` of the current run, flushing
`start.toString()` for a one-line run and `` `${start}-${end}` `` for a
longer run.  JS `.sort` with a numeric comparator is an ascending stable
sort; on naturals any ascending sort produces the same list, modelled by
`List.insertionSort`. -/

/-- Rendering of one flushed run, exactly as the source pushes it. -/
def renderRange (p : Nat × Nat) : String :=
  if p.1 = p.2 then Nat.repr p.1 else Nat.repr p.1 ++ "-" ++ Nat.repr p.2

/-- The single pass of the source, producing the pushed strings.
First argument: current `start`; second: current `end`. -/
def rangesLoopStr : Nat → Nat → List Nat → List String
  | s, e, [] => [renderRange (s, e)]
  | s, e, x :: xs =>
    if x = e + 1 then rangesLoopStr s x xs
    else renderRange (s, e) :: rangesLoopStr x x xs

/-- The same pass at the level of `(start, end)` pairs, for reasoning. -/
def rangesLoop : Nat → Nat → List Nat → List (Nat × Nat)
  | s, e, [] => [(s, e)]
  | s, e, x :: xs =>
    if x = e + 1 then rangesLoop s x xs
    else (s, e) :: rangesLoop x x xs

/-- `groupLinesIntoRanges` from `run-vitest-coverage.ts` (lines 105-137 of
the spawn variant; the `startVitest` variant is identical). -/
def groupLinesIntoRanges (lines : List Nat) : List String :=
  if lines.length = 0 then []
  else
    match List.insertionSort (· ≤ ·) lines with
    | [] => []
    | x :: xs => rangesLoopStr x x xs

/-! ### Expansion of the rendered ranges (the round-trip reading of §8) -/

/-- Split a character list at `'-'` separators. -/
def splitDash : List Char → List (List Char)
  | [] => [[]]
  | c :: cs =>
    if c = '-' then [] :: splitDash cs
    else
      match splitDash cs with
      | [] => [[c]]
      | g :: gs => (c :: g) :: gs

/-- Read a rendered range string back into the list of line numbers it
denotes: a bare decimal denotes itself, `"A-B"` denotes `A, A+1, …, B`. -/
def expandRangeStr (s : String) : List Nat :=
  match (splitDash s.toList).map parseDigits with
  | [a] => [a]
  | [a, b] => List.range' a (b - a + 1)
  | _ => []

/-- The set of integers an inclusive pair `(start, end)` covers. -/
def expandPair (p : Nat × Nat) : List Nat := List.range' p.1 (p.2 - p.1 + 1)

/-! ### Sorted deduplication

The source computes `Array.from(new Set(uncovered.map(i => i.line))).sort((a, b) => a - b)`:
a duplicate-free array of the same members, sorted ascending.  A JS `Set`
keeps first occurrences while `List.dedup` keeps last ones, but sorting a
duplicate-free list ascending depends only on its members, so the two
pipelines produce the same list. -/

def dedupSort (l : List Nat) : List Nat := List.insertionSort (· ≤ ·) l.dedup

/-! ### Uncovered-Line Extractor (`extractUncoveredLines`)

The detailed coverage artifact is a JSON object mapping file paths to
per-file coverage data; the embedding keeps JS object iteration order by
using association lists.  A per-file entry is either not an object at all
(`null` or a primitive) or carries an optional `statementMap` and an
optional counts object `s`.  A statement map entry is modelled by the
start position the source reads (`statement.start.line/column`); per the
data model every statement record carries a start position, which makes
the source's defensive `statement && typeof statement === 'object' &&
statement.start` guard always pass. -/

structure StmtPos where
  line : Nat
  column : Nat
deriving DecidableEq, Repr

structure FileCovData where
  statementMap : Option (List (String × StmtPos))
  s : Option (List (String × Nat))

/-- A value of the detailed coverage object: `null`/non-object, or data. -/
inductive CovEntry where
  | malformed
  | obj (d : FileCovData)

/-- The `statementCounts` branch of the per-file loop: keep a count entry
iff its count is `0` and `statementMap[statementId]` exists. -/
def uncoveredFromCounts (sm : List (String × StmtPos)) :
    List (String × Nat) → List StmtPos
  | [] => []
  | (sid, c) :: rest =>
    if c = 0 then
      match List.lookup sid sm with
      | some p => p :: uncoveredFromCounts sm rest
      | none => uncoveredFromCounts sm rest
    else uncoveredFromCounts sm rest

/-- The `uniqueLines` value computed for one file: the raw uncovered
positions (all statements when no counts object exists, otherwise the
zero-count ones), reduced to deduplicated ascending line numbers. -/
def fileUncoveredLines (sm : List (String × StmtPos))
    (counts : Option (List (String × Nat))) : List Nat :=
  let uncovered : List StmtPos :=
    match counts with
    | none => sm.map (·.2)
    | some cs => uncoveredFromCounts sm cs
  dedupSort (uncovered.map (·.line))

/-- `extractUncoveredLines` (`run-vitest-coverage.ts` lines 54-100):
entries that are not objects or lack a `statementMap` are skipped; a file
whose `uniqueLines` is empty produces no entry. -/
def extractUncoveredLines : List (String × CovEntry) → List (String × List Nat)
  | [] => []
  | (_, CovEntry.malformed) :: rest => extractUncoveredLines rest
  | (fp, CovEntry.obj d) :: rest =>
    match d.statementMap with
    | none => extractUncoveredLines rest
    | some sm =>
      let uniqueLines := fileUncoveredLines sm d.s
      if 0 < uniqueLines.length then (fp, uniqueLines) :: extractUncoveredLines rest
      else extractUncoveredLines rest

/-! ### Coverage Reducer (`detailedFileCoverage` in `run-vitest-coverage.ts`)

The reduce walks the keys of the detailed coverage object filtered to
paths containing `/app/` and sorted, and for each key that also has a
summary entry emits a `FileCoverageEntry` keyed by the path made relative
to the project root (`fullPath.replace(projectDir + '/', '')`).  The
summary is consumed through `fileSummary.lines?.pct || 0`; percentages
are modelled as rationals. -/

/-- The slice of a per-file summary record the reducer consumes:
`lines.pct` when present (`none` models a missing `lines` object or a
missing `pct` field). -/
structure FileSummary where
  linesPct : Option ℚ
deriving DecidableEq, Repr

structure FileCoverageEntry where
  summary : FileSummary
  status : String
  uncoveredLines : String
  totalUncoveredLines : Nat
deriving DecidableEq, Repr

/-- The per-file body of the reduce: classification and rendering from the
summary and the file's uncovered line numbers. -/
def makeCoverageEntry (fileSummary : FileSummary) (lineNumbers : List Nat) :
    FileCoverageEntry :=
  let coveragePercent : ℚ := fileSummary.linesPct.getD 0
  let ranges : List String :=
    if 0 < lineNumbers.length then groupLinesIntoRanges lineNumbers else []
  if coveragePercent = 0 then
    { summary := fileSummary, status := "❌ No coverage",
      uncoveredLines := "all", totalUncoveredLines := lineNumbers.length }
  else if lineNumbers.length = 0 then
    { summary := fileSummary, status := "✅ Perfect coverage",
      uncoveredLines := "none", totalUncoveredLines := lineNumbers.length }
  else
    { summary := fileSummary,
      status := "⚠️ " ++ Nat.repr lineNumbers.length ++ " lines uncovered",
      uncoveredLines := String.intercalate ", " ranges,
      totalUncoveredLines := lineNumbers.length }

/-- The entry (if any) the reduce adds for one full path. -/
def coverageEntryFor (coverageSummary : String → Option FileSummary)
    (uncoveredLines : String → List Nat) (projectDir fullPath : String) :
    Option (String × FileCoverageEntry) :=
  match coverageSummary fullPath with
  | some fs =>
    some (replaceFirst fullPath (projectDir ++ "/"),
      makeCoverageEntry fs (uncoveredLines fullPath))
  | none => none

/-- `detailedFileCoverage`: keys of the detailed coverage object filtered
to paths containing `/app/`, sorted, then reduced to keyed entries. -/
def detailedFileCoverage (coverageKeys : List String)
    (coverageSummary : String → Option FileSummary)
    (uncoveredLines : String → List Nat) (projectDir : String) :
    List (String × FileCoverageEntry) :=
  let appFiles :=
    List.insertionSort (· ≤ ·) (coverageKeys.filter (fun p => containsSub p "/app/"))
  appFiles.foldl
    (fun acc fullPath =>
      acc ++ (coverageEntryFor coverageSummary uncoveredLines projectDir fullPath).toList)
    []

/-! ### Process Output Assembler: completion heuristic and close handlers -/

/-- `stdout.includes('"testResults":[')`. -/
def hasTestResults (stdout : String) : Bool :=
  containsSub stdout "\"testResults\":["

/-- `stdout.trim().endsWith(']}')`. -/
def hasProperEnding (stdout : String) : Bool :=
  endsWithStr (jsTrim stdout) "]\x7d"

/-- `stdout.includes('"numTotalTests":') && stdout.includes('"numPassedTests":')`. -/
def hasValidStructure (stdout : String) : Bool :=
  containsSub stdout "\"numTotalTests\":" && containsSub stdout "\"numPassedTests\":"

/-- Completion heuristic of the spawn-based coverage tool
(`run-vitest-coverage.ts` lines 769-781): the three structural conditions. -/
def coverageOutputComplete (stdout : String) : Bool :=
  hasTestResults stdout && hasProperEnding stdout && hasValidStructure stdout

/-- Completion heuristic of `run-vitest.ts` (lines 185-197): the same
three conditions plus `stdout.length > 500`. -/
def runVitestOutputComplete (stdout : String) : Bool :=
  hasTestResults stdout && hasProperEnding stdout && hasValidStructure stdout
    && decide (500 < stdout.length)

/-- A child process exit code: `none` models a `null` code (killed by signal). -/
def jsCodeStr : Option Int → String
  | some n => n.repr
  | none => "null"

/-- The `close` handler of `run-vitest.ts` (lines 230-244), reached when
the heuristic has not fired: codes 0 and 1 resolve with the buffered
stdout, anything else rejects with a message carrying the stderr. -/
def runVitestOnClose (code : Option Int) (stdout stderr : String) :
    Except String String :=
  if code = some 0 ∨ code = some 1 then Except.ok stdout
  else Except.error
    ("Vitest failed with exit code " ++ jsCodeStr code ++ ". stderr: " ++ stderr)

/-- The `close` handler of the spawn-based coverage tool
(`run-vitest-coverage.ts` lines 793-805): only code 0 with a non-empty
trimmed buffer resolves. -/
def coverageOnClose (code : Option Int) (stdout stderr : String) :
    Except String String :=
  if code = some 0 ∧ jsTrim stdout ≠ "" then Except.ok stdout
  else Except.error
    ("Vitest coverage process failed with code " ++ jsCodeStr code
      ++ ". Stderr: " ++ stderr)

/-! ### Aggregate counts

`run-vitest-coverage.ts` (spawn variant, lines 840-846) copies the
aggregate counts from the parsed runner JSON (`results.numTotalTests || 0`
and friends); the `startVitest`-based variants instead flatten the nested
suite/test tree with `getAllTasks` and count.  Tasks are modelled by
their leaf pass states. -/

inductive TaskTree where
  | leaf (passed : Bool)
  | suite (tasks : List TaskTree)

/-- `getAllTasks`: recursive flattening of a task list into its leaf
tests, in order. -/
def getAllTasks : List TaskTree → List Bool
  | [] => []
  | TaskTree.leaf b :: rest => b :: getAllTasks rest
  | TaskTree.suite ts :: rest => getAllTasks ts ++ getAllTasks rest

/-- The count fields of the parsed runner JSON, each possibly absent,
plus the per-file leaf pass states reconstructible from `testResults`. -/
structure VitestJsonResults where
  numTotalTests : Option Nat
  numPassedTests : Option Nat
  numFailedTests : Option Nat
  numTotalTestSuites : Option Nat
  numPassedTestSuites : Option Nat
  numFailedTestSuites : Option Nat
  testResults : List (List Bool)

/-- The aggregate counts the spawn-based coverage tool reports
(lines 841-846): `results.numTotalTests || 0` etc. — copied, not counted. -/
def coverageReportCounts (results : VitestJsonResults) : Nat × Nat × Nat :=
  (results.numTotalTests.getD 0, results.numPassedTests.getD 0,
    results.numFailedTests.getD 0)

/-- The number of leaf tests in a parsed `testResults` value. -/
def leafTestCount (testResults : List (List Bool)) : Nat :=
  (testResults.flatMap id).length

/-- `numTotalTests` of the `startVitest`-based `run-vitest` variant:
`testFiles.reduce((sum, f) => sum + getAllTasks(f.tasks || []).length, 0)`. -/
def derivedNumTotalTests (files : List (List TaskTree)) : Nat :=
  files.foldl (fun sum f => sum + (getAllTasks f).length) 0

/-- `numPassedTests` of that variant: reduce over the produced
`testResults`, counting `assertionResults` whose status is `'passed'`,
i.e. leaf tasks whose result state is `'pass'`. -/
def derivedNumPassedTests (files : List (List TaskTree)) : Nat :=
  files.foldl (fun sum f => sum + ((getAllTasks f).filter (fun b => b)).length) 0

/-- `numFailedTests`: leaf tasks whose status maps to `'failed'`. -/
def derivedNumFailedTests (files : List (List TaskTree)) : Nat :=
  files.foldl (fun sum f => sum + ((getAllTasks f).filter (fun b => !b)).length) 0

/-! ### Working-directory bracket and the reference heap -/

/-- Outcome of the orchestrated body: the promise resolved, the timeout
rejected, or some other error was thrown. -/
inductive RunOutcome (α : Type) where
  | resolved (value : α)
  | timedOut (message : String)
  | thrown (message : String)

/-- The `chdir`/`try`/`finally` bracket shared by both tools: record the
original working directory, change to the project directory, run the
body (which may itself move the working directory and may end in any
outcome), and restore the original directory in `finally`. The pair
component is the process working directory. -/
def orchestrateWithCwd {α : Type} (projectDir : String)
    (body : String → RunOutcome α × String) (cwd : String) :
    RunOutcome α × String :=
  let originalCwd := cwd
  let cwdInProject := projectDir
  let result := body cwdInProject
  (result.1, originalCwd)

/-- A heap of JS number arrays; a reference is an index. -/
abbrev ArrHeap := List (List Nat)

def readArr (h : ArrHeap) (r : Nat) : List Nat := (List.get? h r).getD []

def writeArr (h : ArrHeap) (r : Nat) (v : List Nat) : ArrHeap := List.set h r v

/-- `groupLinesIntoRanges` against the reference heap: `[...lines]`
allocates a fresh array holding the argument's elements, `.sort` mutates
only that fresh array, and the loop reads from it. -/
def groupLinesIntoRangesHeap (h : ArrHeap) (linesRef : Nat) :
    List String × ArrHeap :=
  let lines := readArr h linesRef
  if lines.length = 0 then ([], h)
  else
    let h1 : ArrHeap := h ++ [lines]
    let copyRef := List.length h
    let h2 := writeArr h1 copyRef (List.insertionSort (· ≤ ·) (readArr h1 copyRef))
    match readArr h2 copyRef with
    | [] => ([], h2)
    | x :: xs => (rangesLoopStr x x xs, h2)

/-! ## Claim theorems -/

/-! ### C1: the completion heuristic and the three-chunk scenario -/

/-- First stdout chunk of the §8 scenario. -/
def chunk1 : String := "\x7b\"numTotalTests\":3,"

/-- Second stdout chunk of the §8 scenario. -/
def chunk2 : String := "\"numPassedTests\":2,\"testResults\":["

/-- Third stdout chunk of the §8 scenario. -/
def chunk3 : String := "...],\"numFailedTests\":1\x7d"

theorem toDigitsCore_eq :
    ∀ (fuel n : Nat) (ds : List Char), n < fuel →
      Nat.toDigitsCore 10 fuel n ds = natChars n ++ ds := by
  intro fuel
  induction fuel with
  | zero => intro n ds h; omega
  | succ f ih =>
    intro n ds h
    rw [Nat.toDigitsCore]
    by_cases h10 : n < 10
    · have hdiv : n / 10 = 0 := Nat.div_eq_of_lt h10
      have hmod : n % 10 = n := Nat.mod_eq_of_lt h10
      simp only [hdiv, if_pos rfl, hmod]
      rw [natChars, dif_pos h10]
      rfl
    · have hdiv : n / 10 ≠ 0 := by omega
      simp only [if_neg hdiv]
      have hlt : n / 10 < f := by omega
      rw [ih (n / 10) _ hlt]
      conv_rhs => rw [natChars, dif_neg h10]
      simp

theorem repr_toList (n : Nat) : (Nat.repr n).toList = natChars n := by
  show (Nat.toDigits 10 n).asString.toList = natChars n
  rw [Nat.toDigits, toDigitsCore_eq (n + 1) n [] (Nat.lt_succ_self n)]
  simp [List.asString, String.toList]

theorem digitChar_toNat : ∀ k, k < 10 → (Nat.digitChar k).toNat = 48 + k := by decide

theorem digitChar_ne_dash : ∀ k, k < 10 → Nat.digitChar k ≠ '-' := by decide

theorem foldl_parseStep_natChars (n : Nat) :
    ∀ a : Nat, (natChars n).foldl parseStep a = a * 10 ^ (natChars n).length + n := by
  induction n using Nat.strong_induction_on with
  | _ n ih =>
    intro a
    by_cases h10 : n < 10
    · rw [natChars, dif_pos h10]
      simp [parseStep, digitChar_toNat n h10]
    · rw [natChars, dif_neg h10]
      have hdivlt : n / 10 < n := by omega
      rw [List.foldl_append, ih (n / 10) hdivlt a]
      have hmod : n % 10 < 10 := Nat.mod_lt _ (by omega)
      simp only [List.foldl_cons, List.foldl_nil, parseStep, List.length_append,
        List.length_singleton, digitChar_toNat _ hmod]
      have : (a * 10 ^ (natChars (n / 10)).length + n / 10) * 10 + (48 + n % 10 - 48)
          = a * 10 ^ ((natChars (n / 10)).length + 1) + (10 * (n / 10) + n % 10) := by
        ring_nf
        omega
      rw [this, Nat.div_add_mod]

theorem parseDigits_natChars (n : Nat) : parseDigits (natChars n) = n := by
  have := foldl_parseStep_natChars n 0
  simpa [parseDigits] using this

theorem natChars_ne_dash (n : Nat) : '-' ∉ natChars n := by
  induction n using Nat.strong_induction_on with
  | _ n ih =>
    by_cases h10 : n < 10
    · rw [natChars, dif_pos h10]
      simp
      exact fun h => digitChar_ne_dash n h10 h.symm
    · rw [natChars, dif_neg h10]
      have hdivlt : n / 10 < n := Nat.div_lt_self (by omega) (by omega)
      have hmod : n % 10 < 10 := Nat.mod_lt _ (by omega)
      simp only [List.mem_append, List.mem_singleton]
      rintro (h | h)
      · exact ih (n / 10) hdivlt h
      · exact digitChar_ne_dash _ hmod h.symm

theorem rangesLoopStr_eq_map (l : List Nat) :
    ∀ s e, rangesLoopStr s e l = (rangesLoop s e l).map renderRange := by
  induction l with
  | nil => intro s e; rfl
  | cons x xs ih =>
    intro s e
    rw [rangesLoopStr, rangesLoop]
    by_cases h : x = e + 1
    · simp only [if_pos h, ih]
    · simp only [if_neg h, List.map_cons, ih]

theorem splitDash_ne_nil : ∀ l : List Char, splitDash l ≠ [] := by
  intro l
  induction l with
  | nil => simp [splitDash]
  | cons c cs ih =>
    rw [splitDash]
    by_cases h : c = '-'
    · simp [if_pos h]
    · simp only [if_neg h]
      cases hs : splitDash cs with
      | nil => simp
      | cons g gs => simp

theorem splitDash_of_no_dash : ∀ l : List Char, '-' ∉ l → splitDash l = [l] := by
  intro l
  induction l with
  | nil => intro _; rfl
  | cons c cs ih =>
    intro hmem
    have hc : c ≠ '-' := fun h => hmem (h ▸ List.mem_cons_self c cs)
    have hcs : '-' ∉ cs := fun h => hmem (List.mem_cons_of_mem c h)
    rw [splitDash, if_neg hc, ih hcs]

theorem splitDash_append (l₂ : List Char) :
    ∀ l₁ : List Char, '-' ∉ l₁ → splitDash (l₁ ++ '-' :: l₂) = l₁ :: splitDash l₂ := by
  intro l₁
  induction l₁ with
  | nil => intro _; simp [splitDash]
  | cons c cs ih =>
    intro hmem
    have hc : c ≠ '-' := fun h => hmem (h ▸ List.mem_cons_self c cs)
    have hcs : '-' ∉ cs := fun h => hmem (List.mem_cons_of_mem c h)
    rw [List.cons_append, splitDash, if_neg hc, ih hcs]

theorem toList_append (s t : String) : (s ++ t).toList = s.toList ++ t.toList := rfl

theorem expandRangeStr_renderRange (p : Nat × Nat) (h : p.1 ≤ p.2) :
    expandRangeStr (renderRange p) = expandPair p := by
  obtain ⟨a, b⟩ := p
  simp only at h
  by_cases hab : a = b
  · subst hab
    have hr : renderRange (a, a) = Nat.repr a := by simp [renderRange]
    rw [hr, expandRangeStr, repr_toList, splitDash_of_no_dash _ (natChars_ne_dash a)]
    simp [parseDigits_natChars, expandPair, List.range']
  · have hr : renderRange (a, b) = Nat.repr a ++ "-" ++ Nat.repr b := by
      simp [renderRange, hab]
    rw [hr, expandRangeStr]
    have htl : (Nat.repr a ++ "-" ++ Nat.repr b).toList = natChars a ++ '-' :: natChars b := by
      rw [toList_append, toList_append, repr_toList, repr_toList]
      simp
    rw [htl, splitDash_append _ _ (natChars_ne_dash a),
      splitDash_of_no_dash _ (natChars_ne_dash b)]
    simp [parseDigits_natChars, expandPair]

theorem mem_expandPair (p : Nat × Nat) (h : p.1 ≤ p.2) (m : Nat) :
    m ∈ expandPair p ↔ p.1 ≤ m ∧ m ≤ p.2 := by
  rw [expandPair, List.mem_range']
  constructor
  · rintro ⟨i, hi, rfl⟩; omega
  · intro hm; exact ⟨m - p.1, by omega, by omega⟩

theorem rangesLoop_le (l : List Nat) :
    ∀ s e, s ≤ e → ∀ p ∈ rangesLoop s e l, p.1 ≤ p.2 := by
  induction l with
  | nil =>
    intro s e hse p hp
    rw [rangesLoop] at hp
    simp at hp
    subst hp; exact hse
  | cons x xs ih =>
    intro s e hse p hp
    rw [rangesLoop] at hp
    by_cases h : x = e + 1
    · rw [if_pos h] at hp
      exact ih s x (by omega) p hp
    · rw [if_neg h] at hp
      rcases List.mem_cons.mp hp with h1 | h2
      · subst h1; exact hse
      · exact ih x x le_rfl p h2

theorem mem_rangesLoop_flat (l : List Nat) :
    ∀ s e m, s ≤ e →
      (m ∈ (rangesLoop s e l).flatMap expandPair ↔ (s ≤ m ∧ m ≤ e) ∨ m ∈ l) := by
  induction l with
  | nil =>
    intro s e m hse
    rw [rangesLoop]
    simp [List.flatMap, mem_expandPair (s, e) hse]
  | cons x xs ih =>
    intro s e m hse
    rw [rangesLoop]
    by_cases h : x = e + 1
    · rw [if_pos h, ih s x m (by omega)]
      subst h
      simp only [List.mem_cons]
      by_cases hm : m ∈ xs
      · simp [hm]
      · simp only [hm, or_false]
        omega
    · rw [if_neg h, List.flatMap_cons, List.mem_append, ih x x m le_rfl,
        mem_expandPair (s, e) hse]
      simp only [List.mem_cons]
      by_cases hm : m ∈ xs
      · simp [hm]
      · simp only [hm, or_false]
        constructor
        · rintro (h1 | ⟨h2, h3⟩)
          · exact Or.inl h1
          · exact Or.inr (by omega)
        · rintro (h1 | rfl)
          · exact Or.inl h1
          · exact Or.inr ⟨le_rfl, le_rfl⟩

theorem groupLines_expand_toFinset (l : List Nat) :
    ((groupLinesIntoRanges l).flatMap expandRangeStr).toFinset = l.toFinset := by
  by_cases hl : l.length = 0
  · have h0 : l = [] := List.length_eq_zero.mp hl
    subst h0
    rfl
  · have hperm := List.perm_insertionSort (· ≤ ·) l
    cases hs : List.insertionSort (· ≤ ·) l with
    | nil =>
      exfalso
      rw [hs] at hperm
      have := hperm.length_eq
      simp at this
      exact hl this.symm
    | cons x xs =>
      rw [hs] at hperm
      have hgroup : groupLinesIntoRanges l = rangesLoopStr x x xs := by
        rw [groupLinesIntoRanges, if_neg hl, hs]
      ext m
      simp only [List.mem_toFinset]
      rw [hgroup, rangesLoopStr_eq_map]
      have hmem : m ∈ ((rangesLoop x x xs).map renderRange).flatMap expandRangeStr ↔
          m ∈ (rangesLoop x x xs).flatMap expandPair := by
        simp only [List.mem_flatMap, List.mem_map]
        constructor
        · rintro ⟨str, ⟨p, hp, rfl⟩, hm⟩
          refine ⟨p, hp, ?_⟩
          rwa [expandRangeStr_renderRange p (rangesLoop_le xs x x le_rfl p hp)] at hm
        · rintro ⟨p, hp, hm⟩
          refine ⟨renderRange p, ⟨p, hp, rfl⟩, ?_⟩
          rwa [expandRangeStr_renderRange p (rangesLoop_le xs x x le_rfl p hp)]
      rw [hmem, mem_rangesLoop_flat xs x x m le_rfl, ← hperm.mem_iff]
      simp only [List.mem_cons]
      by_cases hm : m ∈ xs
      · simp [hm]
      · simp only [hm, or_false]
        omega

theorem mem_dedupSort (l : List Nat) (m : Nat) : m ∈ dedupSort l ↔ m ∈ l := by
  rw [dedupSort, (List.perm_insertionSort (· ≤ ·) l.dedup).mem_iff, List.mem_dedup]

theorem dedupSort_sorted (l : List Nat) : (dedupSort l).Sorted (· < ·) := by
  have h1 : (dedupSort l).Sorted (· ≤ ·) := List.sorted_insertionSort (· ≤ ·) l.dedup
  have h2 : (dedupSort l).Nodup :=
    ((List.perm_insertionSort (· ≤ ·) l.dedup).nodup_iff).mpr (List.nodup_dedup l)
  exact (h1.and h2).imp fun h => lt_of_le_of_ne h.1 h.2

theorem mem_uncoveredFromCounts (sm : List (String × StmtPos)) (p : StmtPos) :
    ∀ cs : List (String × Nat),
      p ∈ uncoveredFromCounts sm cs ↔
        ∃ sid, (sid, 0) ∈ cs ∧ List.lookup sid sm = some p := by
  intro cs
  induction cs with
  | nil => simp [uncoveredFromCounts]
  | cons hd rest ih =>
    obtain ⟨sid, c⟩ := hd
    by_cases hc : c = 0
    · subst hc
      cases hlook : List.lookup sid sm with
      | some q =>
        have hrw : uncoveredFromCounts sm ((sid, 0) :: rest)
            = q :: uncoveredFromCounts sm rest := by
          rw [uncoveredFromCounts, if_pos rfl, hlook]
        rw [hrw]
        simp only [List.mem_cons, ih]
        constructor
        · rintro (rfl | ⟨sid2, hmem, hl2⟩)
          · exact ⟨sid, Or.inl rfl, hlook⟩
          · exact ⟨sid2, Or.inr hmem, hl2⟩
        · rintro ⟨sid2, (heq | hmem2), hl2⟩
          · rw [Prod.mk.injEq] at heq
            rw [heq.1, hlook] at hl2
            exact Or.inl (Option.some.inj hl2).symm
          · exact Or.inr ⟨sid2, hmem2, hl2⟩
      | none =>
        have hrw : uncoveredFromCounts sm ((sid, 0) :: rest)
            = uncoveredFromCounts sm rest := by
          rw [uncoveredFromCounts, if_pos rfl, hlook]
        rw [hrw, ih]
        simp only [List.mem_cons]
        constructor
        · rintro ⟨sid2, hmem, hl2⟩
          exact ⟨sid2, Or.inr hmem, hl2⟩
        · rintro ⟨sid2, (heq | hmem2), hl2⟩
          · rw [Prod.mk.injEq] at heq
            rw [heq.1, hlook] at hl2
            cases hl2
          · exact ⟨sid2, hmem2, hl2⟩
    · have hrw : uncoveredFromCounts sm ((sid, c) :: rest)
          = uncoveredFromCounts sm rest := by
        rw [uncoveredFromCounts, if_neg hc]
      rw [hrw, ih]
      simp only [List.mem_cons]
      constructor
      · rintro ⟨sid2, hmem, hl2⟩
        exact ⟨sid2, Or.inr hmem, hl2⟩
      · rintro ⟨sid2, (heq | hmem2), hl2⟩
        · rw [Prod.mk.injEq] at heq
          exact absurd heq.2.symm hc
        · exact ⟨sid2, hmem2, hl2⟩

theorem mem_coverageFold (coverageSummary : String → Option FileSummary)
    (uncoveredLines : String → List Nat) (projectDir : String)
    (x : String × FileCoverageEntry) :
    ∀ (files : List String) (acc : List (String × FileCoverageEntry)),
      (x ∈ files.foldl
          (fun acc fullPath =>
            acc ++ (coverageEntryFor coverageSummary uncoveredLines projectDir fullPath).toList)
          acc
        ↔ x ∈ acc ∨ ∃ full ∈ files,
            coverageEntryFor coverageSummary uncoveredLines projectDir full = some x) := by
  intro files
  induction files with
  | nil => simp
  | cons f rest ih =>
    intro acc
    rw [List.foldl_cons, ih]
    simp only [List.mem_append, List.mem_cons]
    cases hf : coverageEntryFor coverageSummary uncoveredLines projectDir f with
    | some e =>
      simp only [Option.toList_some, List.mem_singleton]
      constructor
      · rintro ((h1 | rfl) | ⟨full, hmem, hsome⟩)
        · exact Or.inl h1
        · exact Or.inr ⟨f, Or.inl rfl, hf⟩
        · exact Or.inr ⟨full, Or.inr hmem, hsome⟩
      · rintro (h1 | ⟨full, (rfl | hmem), hsome⟩)
        · exact Or.inl (Or.inl h1)
        · rw [hf] at hsome
          exact Or.inl (Or.inr (Option.some.inj hsome).symm)
        · exact Or.inr ⟨full, hmem, hsome⟩
    | none =>
      simp only [Option.toList_none, List.mem_nil_iff, or_false]
      constructor
      · rintro (h1 | ⟨full, hmem, hsome⟩)
        · exact Or.inl h1
        · exact Or.inr ⟨full, Or.inr hmem, hsome⟩
      · rintro (h1 | ⟨full, (rfl | hmem), hsome⟩)
        · exact Or.inl h1
        · rw [hf] at hsome
          cases hsome
        · exact Or.inr ⟨full, hmem, hsome⟩

theorem startsWithChars_nil (s : List Char) : startsWithChars s [] = true := by
  cases s <;> rfl

theorem startsWithChars_append (pat rest : List Char) :
    startsWithChars (pat ++ rest) pat = true := by
  induction pat with
  | nil => exact startsWithChars_nil _
  | cons c cs ih => simp [startsWithChars, ih]

theorem endsWithStr_append (a b : String) : endsWithStr (a ++ b) b = true := by
  rw [endsWithStr, toList_append, List.reverse_append]
  exact startsWithChars_append _ _

/-- C1, counterexample: after the third chunk the accumulated text contains
the per-file results marker and both aggregate markers, but it ends in
`1}` rather than `]}`, so neither variant of the completion heuristic
fires — the claim asserts it must fire after chunk 3. -/
theorem heuristicChunk3DoesNotFire :
    hasTestResults (chunk1 ++ chunk2 ++ chunk3) = true ∧
    hasValidStructure (chunk1 ++ chunk2 ++ chunk3) = true ∧
    hasProperEnding (chunk1 ++ chunk2 ++ chunk3) = false ∧
    coverageOutputComplete (chunk1 ++ chunk2 ++ chunk3) = false ∧
    runVitestOutputComplete (chunk1 ++ chunk2 ++ chunk3) = false := by
  exact ⟨by decide, by decide, by decide, by decide, by decide⟩

/-- C1, amended: the coverage-variant heuristic fires exactly when the
accumulated text contains the per-file results marker, ends (after
trimming) with `]}`, and contains both aggregate markers; the `run-vitest`
variant additionally requires more than 500 buffered characters.  On the
three chunks of the scenario the heuristic does not fire after chunk 1,
chunk 2, or chunk 3, because the accumulated text never ends with `]}`. -/
theorem heuristicFiresExactlyWhen :
    (∀ s, coverageOutputComplete s
      = (hasTestResults s && hasProperEnding s && hasValidStructure s)) ∧
    (∀ s, runVitestOutputComplete s
      = (hasTestResults s && hasProperEnding s && hasValidStructure s
          && decide (500 < s.length))) ∧
    coverageOutputComplete chunk1 = false ∧
    coverageOutputComplete (chunk1 ++ chunk2) = false ∧
    coverageOutputComplete (chunk1 ++ chunk2 ++ chunk3) = false ∧
    runVitestOutputComplete chunk1 = false ∧
    runVitestOutputComplete (chunk1 ++ chunk2) = false ∧
    runVitestOutputComplete (chunk1 ++ chunk2 ++ chunk3) = false :=
  ⟨fun _ => rfl, fun _ => rfl, by decide, by decide, by decide, by decide,
    by decide, by decide⟩

/-! ### C2: the Range Grouper round-trip law -/

/-- C2: for a duplicate-free list of line numbers, expanding the rendered
range strings of `groupLinesIntoRanges` reproduces exactly the input set,
and the empty input yields the empty output. -/
theorem rangeGrouperRoundTrip :
    (∀ l : List Nat, l.Nodup →
      ((groupLinesIntoRanges l).flatMap expandRangeStr).toFinset = l.toFinset) ∧
    groupLinesIntoRanges [] = [] :=
  ⟨fun l _ => groupLines_expand_toFinset l, rfl⟩

theorem rangeGrouperRoundTrip_witness :
    ([5, 1, 3, 2] : List Nat).Nodup ∧
    ((groupLinesIntoRanges [5, 1, 3, 2]).flatMap expandRangeStr).toFinset
      = ([5, 1, 3, 2] : List Nat).toFinset :=
  ⟨by decide, rangeGrouperRoundTrip.1 [5, 1, 3, 2] (by decide)⟩

/-! ### C3: exit-code policy of the close handlers -/

/-- C3, counterexample: the spawn-based coverage tool's `close` handler
rejects a natural exit with code 1 even though the buffer is non-empty;
the claim says every assembler resolves on exit code 1. -/
theorem coverageOnCloseExit1Rejects :
    coverageOnClose (some 1) "\x7b\"testResults\":[]\x7d" "boom"
      = Except.error "Vitest coverage process failed with code 1. Stderr: boom" := rfl

/-- C3, amended: the `run-vitest` assembler resolves on natural exit with
code 0 or 1 and rejects any other code with an error carrying the
captured stderr; the spawn-based coverage assembler resolves only on exit
code 0 with a non-empty trimmed buffer, rejecting everything else
(including exit code 1) with an error carrying the captured stderr. -/
theorem onCloseExitCodePolicy :
    (∀ out err, runVitestOnClose (some 0) out err = Except.ok out) ∧
    (∀ out err, runVitestOnClose (some 1) out err = Except.ok out) ∧
    (∀ code out err, code ≠ some 0 → code ≠ some 1 →
      runVitestOnClose code out err
        = Except.error
            ("Vitest failed with exit code " ++ jsCodeStr code ++ ". stderr: " ++ err)
        ∧ endsWithStr
            ("Vitest failed with exit code " ++ jsCodeStr code ++ ". stderr: " ++ err)
            err = true) ∧
    (∀ code out err,
      (∃ v, coverageOnClose code out err = Except.ok v)
        ↔ code = some 0 ∧ jsTrim out ≠ "") ∧
    (∀ code out err, ¬(code = some 0 ∧ jsTrim out ≠ "") →
      coverageOnClose code out err
        = Except.error
            ("Vitest coverage process failed with code " ++ jsCodeStr code
              ++ ". Stderr: " ++ err)
        ∧ endsWithStr
            ("Vitest coverage process failed with code " ++ jsCodeStr code
              ++ ". Stderr: " ++ err)
            err = true) := by
  refine ⟨?_, ?_, ?_, ?_, ?_⟩
  · intro out err
    simp [runVitestOnClose]
  · intro out err
    simp [runVitestOnClose]
  · intro code out err h0 h1
    have hcond : ¬(code = some 0 ∨ code = some 1) := by tauto
    exact ⟨by rw [runVitestOnClose, if_neg hcond], endsWithStr_append _ _⟩
  · intro code out err
    constructor
    · rintro ⟨v, hv⟩
      by_cases hcond : code = some 0 ∧ jsTrim out ≠ ""
      · exact hcond
      · rw [coverageOnClose, if_neg hcond] at hv
        cases hv
    · intro hcond
      exact ⟨out, by rw [coverageOnClose, if_pos hcond]⟩
  · intro code out err hcond
    exact ⟨by rw [coverageOnClose, if_neg hcond], endsWithStr_append _ _⟩

theorem onCloseExitCodePolicy_witness :
    ((some 2 : Option Int) ≠ some 0) ∧ ((some 2 : Option Int) ≠ some 1) ∧
    (runVitestOnClose (some 2) "out" "boom"
      = Except.error
          ("Vitest failed with exit code " ++ jsCodeStr (some 2) ++ ". stderr: " ++ "boom")
      ∧ endsWithStr
          ("Vitest failed with exit code " ++ jsCodeStr (some 2) ++ ". stderr: " ++ "boom")
          "boom" = true) :=
  ⟨by decide, by decide,
    onCloseExitCodePolicy.2.2.1 (some 2) "out" "boom" (by decide) (by decide)⟩

/-! ### C5: the production Range Grouper does not deduplicate -/

/-- C5: evaluating the production `groupLinesIntoRanges` at the failing
input `[1,1,2,2,4,4]`.  It sorts but never deduplicates, so the duplicate
values produce the duplicate and overlapping entries below, not the
`["1-2","4"]` required by the claim and asserted by the repository's own
unit test of the (deduplicating) copy in `coverage-analysis.test.ts`. -/
theorem groupLinesDuplicatesNotDeduplicated :
    groupLinesIntoRanges [1, 1, 2, 2, 4, 4] = ["1", "1-2", "2", "4", "4"] := by decide

/-! ### C9: working-directory restoration -/

/-- C9: for any body outcome — resolved, timed out, or thrown — the
`chdir`/`try`/`finally` bracket leaves the process working directory
equal to its value before the invocation, while passing the body's
outcome through. -/
theorem cwdRestoredOnEveryExitPath :
    ∀ (α : Type) (projectDir cwd : String) (body : String → RunOutcome α × String),
      (orchestrateWithCwd projectDir body cwd).2 = cwd ∧
      (orchestrateWithCwd projectDir body cwd).1 = (body projectDir).1 :=
  fun _ _ _ _ => ⟨rfl, rfl⟩

/-! ### C4: the Uncovered-Line Extractor contract -/

/-- C4: malformed entries and entries lacking a statement map are skipped
and produce no output; with no counts object every statement's start line
is uncovered; with a counts object a statement is uncovered exactly when
its count is 0 (and it exists in the statement map); each file's line
list is duplicate-free and strictly ascending; and a file whose uncovered
set is empty is omitted entirely. -/
theorem extractorContract :
    (∀ fp rest, extractUncoveredLines ((fp, CovEntry.malformed) :: rest)
      = extractUncoveredLines rest) ∧
    (∀ fp counts rest,
      extractUncoveredLines ((fp, CovEntry.obj ⟨none, counts⟩) :: rest)
        = extractUncoveredLines rest) ∧
    (∀ sm m, m ∈ fileUncoveredLines sm none ↔
      ∃ sid p, (sid, p) ∈ sm ∧ StmtPos.line p = m) ∧
    (∀ sm cs m, m ∈ fileUncoveredLines sm (some cs) ↔
      ∃ sid p, (sid, 0) ∈ cs ∧ List.lookup sid sm = some p ∧ StmtPos.line p = m) ∧
    (∀ sm counts, (fileUncoveredLines sm counts).Sorted (· < ·)) ∧
    (∀ fp sm counts rest, fileUncoveredLines sm counts = [] →
      extractUncoveredLines ((fp, CovEntry.obj ⟨some sm, counts⟩) :: rest)
        = extractUncoveredLines rest) ∧
    (∀ fp sm counts rest, fileUncoveredLines sm counts ≠ [] →
      extractUncoveredLines ((fp, CovEntry.obj ⟨some sm, counts⟩) :: rest)
        = (fp, fileUncoveredLines sm counts) :: extractUncoveredLines rest) := by
  refine ⟨?_, ?_, ?_, ?_, ?_, ?_, ?_⟩
  · intro fp rest
    rfl
  · intro fp counts rest
    rfl
  · intro sm m
    simp only [fileUncoveredLines, mem_dedupSort, List.map_map, List.mem_map,
      Function.comp]
    constructor
    · rintro ⟨⟨sid, p⟩, hmem, rfl⟩
      exact ⟨sid, p, hmem, rfl⟩
    · rintro ⟨sid, p, hmem, rfl⟩
      exact ⟨(sid, p), hmem, rfl⟩
  · intro sm cs m
    simp only [fileUncoveredLines, mem_dedupSort, List.mem_map,
      mem_uncoveredFromCounts]
    constructor
    · rintro ⟨p, ⟨sid, hmem, hlook⟩, rfl⟩
      exact ⟨sid, p, hmem, hlook, rfl⟩
    · rintro ⟨sid, p, hmem, hlook, rfl⟩
      exact ⟨p, ⟨sid, hmem, hlook⟩, rfl⟩
  · intro sm counts
    cases counts with
    | none => exact dedupSort_sorted _
    | some cs => exact dedupSort_sorted _
  · intro fp sm counts rest h
    simp only [extractUncoveredLines, h]
    simp
  · intro fp sm counts rest h
    have hlen : 0 < (fileUncoveredLines sm counts).length := List.length_pos.mpr h
    simp only [extractUncoveredLines, if_pos hlen]

theorem extractorContract_witness :
    fileUncoveredLines [("0", StmtPos.mk 7 0)] none ≠ [] ∧
    extractUncoveredLines
        [("/t/a.ts", CovEntry.obj ⟨some [("0", StmtPos.mk 7 0)], none⟩)]
      = [("/t/a.ts", fileUncoveredLines [("0", StmtPos.mk 7 0)] none)] :=
  ⟨by decide,
    extractorContract.2.2.2.2.2.2 "/t/a.ts" [("0", StmtPos.mk 7 0)] none [] (by decide)⟩

/-! ### C6: per-file status classification and rendering -/

/-- C6: in priority order — line percentage exactly 0 (including a missing
percentage, which `|| 0` maps to 0) gives the no-coverage status with
`uncoveredLines = "all"`; otherwise an empty uncovered set gives the
perfect status with `"none"`; otherwise the partial status annotated with
the count, `uncoveredLines` the Range Grouper's output joined with
`", "`, and `totalUncoveredLines` the count. -/
theorem coverageStatusClassification :
    (∀ fs lines, fs.linesPct.getD 0 = 0 →
      makeCoverageEntry fs lines
        = ⟨fs, "❌ No coverage", "all", lines.length⟩) ∧
    (∀ fs lines, fs.linesPct.getD 0 ≠ 0 → lines.length = 0 →
      makeCoverageEntry fs lines
        = ⟨fs, "✅ Perfect coverage", "none", lines.length⟩) ∧
    (∀ fs lines, fs.linesPct.getD 0 ≠ 0 → lines.length ≠ 0 →
      makeCoverageEntry fs lines
        = ⟨fs, "⚠️ " ++ Nat.repr lines.length ++ " lines uncovered",
            String.intercalate ", " (groupLinesIntoRanges lines),
            lines.length⟩) := by
  refine ⟨?_, ?_, ?_⟩
  · intro fs lines h
    simp only [makeCoverageEntry]
    rw [if_pos h]
  · intro fs lines h h0
    simp only [makeCoverageEntry]
    rw [if_neg h, if_pos h0]
  · intro fs lines h h0
    simp only [makeCoverageEntry]
    rw [if_neg h, if_neg h0, if_pos (Nat.pos_of_ne_zero h0)]

theorem coverageStatusClassification_witness :
    ((FileSummary.mk (some 50)).linesPct.getD 0 ≠ 0) ∧
    (([3, 5] : List Nat).length ≠ 0) ∧
    makeCoverageEntry (FileSummary.mk (some 50)) [3, 5]
      = ⟨FileSummary.mk (some 50),
          "⚠️ " ++ Nat.repr ([3, 5] : List Nat).length ++ " lines uncovered",
          String.intercalate ", " (groupLinesIntoRanges [3, 5]),
          ([3, 5] : List Nat).length⟩ :=
  ⟨by decide, by decide,
    coverageStatusClassification.2.2 (FileSummary.mk (some 50)) [3, 5]
      (by decide) (by decide)⟩

/-! ### C7: which files the reducer includes -/

/-- C7, counterexample: a file that has a summary entry but whose path
does not contain `/app/` is dropped by the reducer's own filter, so it is
absent from the produced report — the claim says the reducer performs no
filtering by directory membership. -/
theorem reducerFiltersNonAppPaths :
    detailedFileCoverage ["/proj/src/used.ts"]
      (fun _ => some (FileSummary.mk (some 50))) (fun _ => []) "/proj" = [] := by
  decide

/-- C7, amended: a relative path appears in the produced report exactly
when some key of the detailed coverage map contains `/app/`, has a
summary entry, and rewrites to that relative path — the reducer itself
filters by `/app/` directory membership. -/
theorem reducerIncludesExactlyAppFiles :
    ∀ (keys : List String) (summary : String → Option FileSummary)
      (unc : String → List Nat) (dir rel : String),
      (∃ e, (rel, e) ∈ detailedFileCoverage keys summary unc dir) ↔
      (∃ full fs, full ∈ keys ∧ containsSub full "/app/" = true ∧
        summary full = some fs ∧ rel = replaceFirst full (dir ++ "/")) := by
  intro keys summary unc dir rel
  constructor
  · rintro ⟨e, hmem⟩
    rw [detailedFileCoverage, mem_coverageFold] at hmem
    rcases hmem with h | ⟨full, hfull, hsome⟩
    · cases h
    · have hfull2 : full ∈ keys.filter (fun p => containsSub p "/app/") :=
        (List.perm_insertionSort _ _).mem_iff.mp hfull
      obtain ⟨hk, hp⟩ := List.mem_filter.mp hfull2
      cases hsum : summary full with
      | none =>
        rw [coverageEntryFor, hsum] at hsome
        cases hsome
      | some fs =>
        rw [coverageEntryFor, hsum] at hsome
        have hpair := Option.some.inj hsome
        exact ⟨full, fs, hk, hp, hsum, (congrArg Prod.fst hpair).symm⟩
  · rintro ⟨full, fs, hk, hp, hsum, rfl⟩
    refine ⟨makeCoverageEntry fs (unc full), ?_⟩
    rw [detailedFileCoverage, mem_coverageFold]
    refine Or.inr ⟨full, ?_, ?_⟩
    · exact (List.perm_insertionSort _ _).mem_iff.mpr (List.mem_filter.mpr ⟨hk, hp⟩)
    · rw [coverageEntryFor, hsum]

/-! ### C8: aggregate counts -/

theorem foldl_add_sum {α : Type} (g : α → Nat) :
    ∀ (l : List α) (a : Nat),
      l.foldl (fun sum f => sum + g f) a = a + (l.map g).sum := by
  intro l
  induction l with
  | nil => intro a; simp
  | cons f rest ih =>
    intro a
    rw [List.foldl_cons, ih]
    simp [List.sum_cons]
    omega

theorem length_flatMap_getAllTasks (files : List (List TaskTree)) :
    (files.flatMap getAllTasks).length
      = (files.map (fun f => (getAllTasks f).length)).sum := by
  induction files with
  | nil => rfl
  | cons f rest ih => simp [List.flatMap_cons, ih]

theorem filter_flatMap_getAllTasks (p : Bool → Bool) (files : List (List TaskTree)) :
    ((files.flatMap getAllTasks).filter p).length
      = (files.map (fun f => ((getAllTasks f).filter p).length)).sum := by
  induction files with
  | nil => rfl
  | cons f rest ih => simp [List.flatMap_cons, List.filter_append, ih]

theorem filter_length_split (l : List Bool) :
    (l.filter (fun b => b)).length + (l.filter (fun b => !b)).length = l.length := by
  induction l with
  | nil => rfl
  | cons b rest ih => cases b <;> simp [List.filter_cons] <;> omega

/-- C8, counterexample: the spawn-based coverage tool's aggregates are the
runner-reported fields (`results.numTotalTests || 0` and friends), not a
recount — a report claiming 5/4/1 over a `testResults` tree holding one
passing leaf is propagated unchanged, so the claim that totals are never
copied from the runner's own fields fails. -/
theorem coverageCountsCopiedFromRunner :
    coverageReportCounts
        ⟨some 5, some 4, some 1, some 1, some 1, some 0, [[true]]⟩ = (5, 4, 1) ∧
    leafTestCount [[true]] = 1 ∧ (5 : Nat) ≠ 1 :=
  ⟨rfl, rfl, by decide⟩

/-- C8, amended: the `startVitest`-based variants derive their aggregates
by counting the flattened leaf outcomes (`getAllTasks`), and those
derived counts are consistent (`passed + failed = total`); the spawn
variants instead copy the aggregate fields of the runner's own JSON
report. -/
theorem derivedCountsCountLeaves :
    ∀ files : List (List TaskTree),
      derivedNumTotalTests files = (files.flatMap getAllTasks).length ∧
      derivedNumPassedTests files
        = ((files.flatMap getAllTasks).filter (fun b => b)).length ∧
      derivedNumFailedTests files
        = ((files.flatMap getAllTasks).filter (fun b => !b)).length ∧
      derivedNumPassedTests files + derivedNumFailedTests files
        = derivedNumTotalTests files := by
  intro files
  have h1 : derivedNumTotalTests files = (files.flatMap getAllTasks).length := by
    rw [derivedNumTotalTests, foldl_add_sum, length_flatMap_getAllTasks]
    omega
  have h2 : derivedNumPassedTests files
      = ((files.flatMap getAllTasks).filter (fun b => b)).length := by
    rw [derivedNumPassedTests, foldl_add_sum, filter_flatMap_getAllTasks]
    omega
  have h3 : derivedNumFailedTests files
      = ((files.flatMap getAllTasks).filter (fun b => !b)).length := by
    rw [derivedNumFailedTests, foldl_add_sum, filter_flatMap_getAllTasks]
    omega
  refine ⟨h1, h2, h3, ?_⟩
  rw [h1, h2, h3, filter_length_split]

/-! ### C10: the Range Grouper sorts a copy of its argument -/

theorem set_append_length (l : List (List Nat)) (a v : List Nat) :
    (l ++ [a]).set l.length v = l ++ [v] := by
  induction l with
  | nil => rfl
  | cons x xs ih => simp [List.set, ih]

theorem groupLinesIntoRangesHeap_eq (h : ArrHeap) (r : Nat)
    (h0 : (readArr h r).length ≠ 0) :
    groupLinesIntoRangesHeap h r
      = (groupLinesIntoRanges (readArr h r),
          h ++ [List.insertionSort (· ≤ ·) (readArr h r)]) := by
  have ha : readArr (h ++ [readArr h r]) (List.length h) = readArr h r := by
    rw [readArr, List.get?_concat_length]
    rfl
  have hb : readArr (h ++ [List.insertionSort (· ≤ ·) (readArr h r)]) (List.length h)
      = List.insertionSort (· ≤ ·) (readArr h r) := by
    rw [readArr, List.get?_concat_length]
    rfl
  simp only [groupLinesIntoRangesHeap, if_neg h0, writeArr, ha, set_append_length, hb]
  rw [groupLinesIntoRanges, if_neg h0]
  cases List.insertionSort (· ≤ ·) (readArr h r) with
  | nil => rfl
  | cons x xs => rfl

/-- C10: against the reference heap, `groupLinesIntoRanges` leaves the
array its argument references unchanged — it copies, sorts the copy, and
its result agrees with the pure embedding on the referenced contents. -/
theorem groupLinesHeapFrame (h : ArrHeap) (r : Nat) (hr : r < List.length h) :
    readArr (groupLinesIntoRangesHeap h r).2 r = readArr h r ∧
    (groupLinesIntoRangesHeap h r).1 = groupLinesIntoRanges (readArr h r) := by
  by_cases h0 : (readArr h r).length = 0
  · constructor
    · simp only [groupLinesIntoRangesHeap, if_pos h0]
    · simp only [groupLinesIntoRangesHeap, if_pos h0]
      rw [groupLinesIntoRanges, if_pos h0]
  · rw [groupLinesIntoRangesHeap_eq h r h0]
    constructor
    · show readArr (h ++ [_]) r = readArr h r
      rw [readArr, readArr, List.get?_append hr]
    · rfl

theorem groupLinesHeapFrame_witness :
    (0 < List.length ([[3, 1, 2]] : ArrHeap)) ∧
    (readArr (groupLinesIntoRangesHeap [[3, 1, 2]] 0).2 0 = readArr [[3, 1, 2]] 0 ∧
      (groupLinesIntoRangesHeap [[3, 1, 2]] 0).1
        = groupLinesIntoRanges (readArr [[3, 1, 2]] 0)) :=
  ⟨by decide, groupLinesHeapFrame [[3, 1, 2]] 0 (by decide)⟩
